import Mathlib

/-! Shallow embedding of the signal-and-simulation core of the stonkman
repository (day_trade.py, frvp_strat.py, market_analyzer.py): the window
sizer, the RSI computation, the volume-profile analysis, the MACD-cross
entry rule, the single-position trade state machine and the result summary.
Floating-point series are modelled as exact rationals; pandas NaN cells are
modelled as `Option` values, and the IEEE division cases produced by
`gain / loss` (infinity on x/0 with x > 0, NaN on 0/0) are expanded
explicitly where the source relies on them. -/

/-- One OHLCV bar, restricted to the fields the analysed functions read
(High, Low, Close, Volume).  An absent (NaN) volume cell is `none`. -/
structure Bar where
  high : ℚ
  low : ℚ
  close : ℚ
  volume : Option Rat
deriving DecidableEq

/-- Positional index, bar and volume of every bar whose Volume cell is
present, starting the numbering at `i` (the pandas index is modelled by
position). -/
def volEntriesFrom : Nat → List Bar → List (Nat × Bar × ℚ)
  | _, [] => []
  | i, b :: rest =>
    match b.volume with
    | some v => (i, b, v) :: volEntriesFrom (i + 1) rest
    | none => volEntriesFrom (i + 1) rest

/-- The bars of the series that carry a present Volume cell, with their
positions; this is what `data['Volume'].dropna()` ranges over. -/
def volEntries (bars : List Bar) : List (Nat × Bar × ℚ) :=
  volEntriesFrom 0 bars

/-- `Series.idxmax` over the present volumes: the first entry attaining the
maximal volume (pandas returns the first index on ties and skips NaN). -/
def firstArgmax : List (Nat × Bar × ℚ) → Option (Nat × Bar × ℚ)
  | [] => none
  | e :: rest =>
    match firstArgmax rest with
    | none => some e
    | some m => if e.2.2 < m.2.2 then some m else some e

/-- Remove the first entry of maximal volume from the list, returning it and
the remaining entries; the building block of `Series.nlargest`. -/
def extractMax : List (Nat × Bar × ℚ) → Option ((Nat × Bar × ℚ) × List (Nat × Bar × ℚ))
  | [] => none
  | e :: rest =>
    match extractMax rest with
    | none => some (e, [])
    | some (m, rem) => if e.2.2 < m.2.2 then some (m, e :: rem) else some (e, rest)

/-- `Series.nlargest n` with pandas' default first-occurrence tie handling:
repeatedly extract the first remaining entry of maximal volume. -/
def selectTop : Nat → List (Nat × Bar × ℚ) → List (Nat × Bar × ℚ)
  | 0, _ => []
  | n + 1, l =>
    match extractMax l with
    | none => []
    | some (m, rem) => m :: selectTop n rem

/-- `Series.max` of a list of rationals (`none` on the empty series). -/
def listMax : List ℚ → Option ℚ
  | [] => none
  | x :: rest =>
    match listMax rest with
    | none => some x
    | some m => some (max x m)

/-- `Series.min` of a list of rationals (`none` on the empty series). -/
def listMin : List ℚ → Option ℚ
  | [] => none
  | x :: rest =>
    match listMin rest with
    | none => some x
    | some m => some (min x m)

/-- frvp_strat.py `calculate_volume_profile` (lines 205-223): `(None, None,
None)` on an empty frame and when every Volume cell is absent; otherwise the
Close of the raw-volume `idxmax` bar, and the max High / min Low over the
`nlargest(10)` bars by raw volume.  The source's `volume_max_idx in
data.index` test and the `top_volumes.index.intersection(data.index)` steps
are identities here because the entries carry their own positions. -/
def calculate_volume_profile (bars : List Bar) : Option ℚ × Option ℚ × Option ℚ :=
  if bars.isEmpty then (none, none, none)
  else
    let entries := volEntries bars
    if entries.isEmpty then (none, none, none)
    else
      let poc := (firstArgmax entries).map (fun e => e.2.1.close)
      let top := selectTop 10 entries
      if top.isEmpty then (poc, none, none)
      else
        (poc, listMax (top.map (fun e => e.2.1.high)),
          listMin (top.map (fun e => e.2.1.low)))

/-- market_analyzer.py `calculate_volume_profile` (lines 21-28) aggregates
volume by exact close price: this is the total present volume traded at
close price `p` (`data.groupby('close')['volume'].sum()` at key `p`;
pandas sums with NaN skipped). -/
def aggVolumeAt (bars : List Bar) (p : ℚ) : ℚ :=
  match bars with
  | [] => 0
  | b :: rest => (if b.close = p then b.volume.getD 0 else 0) + aggVolumeAt rest p

/-- frvp_strat.py `interval_to_minutes` / `interval_duration_minutes`
mapping (lines 113-115 and 158-160); `none` models the KeyError raised on
an interval outside the mapping. -/
def interval_duration_minutes (s : String) : Option Nat :=
  if s = "1m" then some 1
  else if s = "2m" then some 2
  else if s = "5m" then some 5
  else if s = "30m" then some 30
  else if s = "1h" then some 60
  else if s = "1d" then some 1440
  else if s = "1wk" then some 10080
  else none

/-- frvp_strat.py `intervals_per_period` (lines 154-162):
`period_days * 1440 // interval_duration_minutes[interval]` (Python floor
division on non-negative ints is `Nat` division). -/
def intervals_per_period (interval : String) (period_days : Nat) : Option Nat :=
  (interval_duration_minutes interval).map (fun m => period_days * 1440 / m)

/-- The per-bar gain series `delta.where(delta > 0, 0)` of
frvp_strat.py `calculate_rsi`: the NaN produced by `diff(1)` at position 0
compares false against 0, so `where` replaces it by 0. -/
def gainAt (closes : List ℚ) : Nat → ℚ
  | 0 => 0
  | i + 1 =>
    match closes[i + 1]?, closes[i]? with
    | some c1, some c0 => max (c1 - c0) 0
    | _, _ => 0

/-- The per-bar loss series `-delta.where(delta < 0, 0)` of
frvp_strat.py `calculate_rsi`. -/
def lossAt (closes : List ℚ) : Nat → ℚ
  | 0 => 0
  | i + 1 =>
    match closes[i + 1]?, closes[i]? with
    | some c1, some c0 => max (c0 - c1) 0
    | _, _ => 0

/-- Sum of the trailing window `f i, f (i-1), ..., f (i-w+1)` of a per-bar
series, `w` terms in total. -/
def sumBack (f : Nat → ℚ) (i : Nat) : Nat → ℚ
  | 0 => 0
  | w + 1 => f i + sumBack f (i - 1) w

/-- `gain.rolling(window=w).mean()` at position `i`: `none` (NaN) while the
window has not filled (`min_periods` defaults to the window length). -/
def avgGain (closes : List ℚ) (w i : Nat) : Option ℚ :=
  if i + 1 < w then none else some (sumBack (gainAt closes) i w / (w : ℚ))

/-- `loss.rolling(window=w).mean()` at position `i`. -/
def avgLoss (closes : List ℚ) (w i : Nat) : Option ℚ :=
  if i + 1 < w then none else some (sumBack (lossAt closes) i w / (w : ℚ))

/-- One cell of the RSI column of frvp_strat.py `calculate_rsi` (lines
165-176).  The float cases of `rsi = 100 - 100/(1 + gain/loss)` followed by
`rsi.fillna(50)` are expanded: a NaN average (window run-in) is filled with
50; with averages present, `loss > 0` gives the finite formula,
`loss = 0 < gain` gives `rs = inf` hence `rsi = 100` (not NaN, so not
filled), and `loss = gain = 0` gives `rs = NaN` hence 50 after the fill. -/
def rsiAt (closes : List ℚ) (w i : Nat) : ℚ :=
  match avgGain closes w i, avgLoss closes w i with
  | some g, some l =>
    if 0 < l then 100 - 100 / (1 + g / l)
    else if 0 < g then 100
    else 50
  | _, _ => 50

/-- frvp_strat.py `calculate_rsi` (lines 165-176): the RSI column over a
close series, with the rolling window obtained by converting 14 days
through `intervals_per_period`; `none` models the KeyError on an unmapped
interval. -/
def calculate_rsi (closes : List ℚ) (interval : String) : Option (List ℚ) :=
  (intervals_per_period interval 14).map
    (fun w => (List.range closes.length).map (rsiAt closes w))

/-- The `MACD_cross` column of day_trade.py `find_entry_points` (line 74):
`(MACD > MACD_signal) & (MACD.shift(1) < MACD_signal.shift(1))`.  At
position 0 the shifted cells are NaN and the comparison is false; cells
out of range behave the same way. -/
def macd_cross_entry (macd signal : List ℚ) : Nat → Bool
  | 0 => false
  | i + 1 =>
    match macd[i + 1]?, signal[i + 1]?, macd[i]?, signal[i]? with
    | some m1, some s1, some m0, some s0 => decide (s1 < m1) && decide (m0 < s0)
    | _, _, _, _ => false

/-- One row of the entry-point (or exit-point) frame of day_trade.py: the
five per-rule boolean columns. -/
structure Flags where
  macd_cross : Bool
  rsi : Bool
  bb : Bool
  obv : Bool
  adx : Bool
deriving DecidableEq

/-- `row.any()` over the five boolean columns. -/
def Flags.anyRule (f : Flags) : Bool :=
  f.macd_cross || f.rsi || f.bb || f.obv || f.adx

/-- The five entry rules of day_trade.py, as a tagged enumeration. -/
inductive Rule
  | macdCross
  | rsiRule
  | bollinger
  | obvRule
  | adxRule
deriving DecidableEq

/-- Whether an entry rule's column is set in a flag row. -/
def ruleFires (f : Flags) : Rule → Bool
  | .macdCross => f.macd_cross
  | .rsiRule => f.rsi
  | .bollinger => f.bb
  | .obvRule => f.obv
  | .adxRule => f.adx

/-- The reason text the source puts inside a buy label. -/
def reasonName : Rule → String
  | .macdCross => "MACD cross"
  | .rsiRule => "RSI"
  | .bollinger => "Bollinger Bands"
  | .obvRule => "OBV"
  | .adxRule => "ADX"

/-- The evaluation order of the if/elif chain of day_trade.py
`execute_trades` (lines 111-120). -/
def priorityOrder : List Rule :=
  [.macdCross, .rsiRule, .bollinger, .obvRule, .adxRule]

/-- The number of entry rules firing on a flag row. -/
def countFiring (f : Flags) : Nat :=
  (priorityOrder.filter (ruleFires f)).length

/-- The if/elif chain of day_trade.py `execute_trades` (lines 111-122)
labelling a buy, including its unreachable `'wait'` else branch. -/
def buyLabel (f : Flags) : String :=
  if f.macd_cross then "buy (MACD cross)"
  else if f.rsi then "buy (RSI)"
  else if f.bb then "buy (Bollinger Bands)"
  else if f.obv then "buy (OBV)"
  else if f.adx then "buy (ADX)"
  else "wait"

/-- One loop iteration of day_trade.py `execute_trades` (lines 102-125):
from the `in_trade` flag and the bar's (entry, exit) flag rows, the emitted
action string and the next `in_trade` flag.  Note the source sets
`in_trade = True` on the whole entry branch, the `'wait'` arm included. -/
def tradeStep (inTrade : Bool) (f : Flags × Flags) : String × Bool :=
  if inTrade then
    if f.2.anyRule then ("sell", false) else ("hold", true)
  else
    if f.1.anyRule then (buyLabel f.1, true) else ("hold", false)

/-- The action column produced by the loop of `execute_trades`, starting
from a given `in_trade` state. -/
def tradeGo : Bool → List (Flags × Flags) → List String
  | _, [] => []
  | s, f :: rest => (tradeStep s f).1 :: tradeGo (tradeStep s f).2 rest

/-- day_trade.py `execute_trades` (lines 99-126): one action string per
bar, starting Flat (`in_trade = False`). -/
def execute_trades (flags : List (Flags × Flags)) : List String :=
  tradeGo false flags

/-- The `in_trade` state held just before the loop iteration of index `n`. -/
def stateBefore : Bool → List (Flags × Flags) → Nat → Bool
  | s, _, 0 => s
  | s, [], _ + 1 => s
  | s, f :: rest, n + 1 => stateBefore (tradeStep s f).2 rest n

/-- Whether an action string is a Buy action of the simulator's vocabulary
(a plain `'buy'` or any reason-labelled buy). -/
def isBuyAct (s : String) : Bool :=
  s == "buy" || s == "buy (MACD cross)" || s == "buy (RSI)" ||
    s == "buy (Bollinger Bands)" || s == "buy (OBV)" || s == "buy (ADX)"

/-- The number of Buy actions in an action sequence. -/
def countBuyActions (acts : List String) : Nat :=
  (acts.filter isBuyAct).length

/-- day_trade.py `display_results` (lines 142-152): buy count, sell count,
buy timestamps and sell timestamps, where the buy rows are selected by the
exact comparison `trades['action'] == 'buy'` and the sell rows by
`== 'sell'`; timestamps are paired positionally with the action column. -/
def display_results (ts : List Nat) (acts : List String) :
    Nat × Nat × List Nat × List Nat :=
  let buys := ((ts.zip acts).filter (fun p => p.2 == "buy")).map (fun p => p.1)
  let sells := ((ts.zip acts).filter (fun p => p.2 == "sell")).map (fun p => p.1)
  (buys.length, sells.length, buys, sells)

/-- A 14-bar strictly rising close series, used as a concrete input. -/
def closes14 : List ℚ :=
  [1, 2, 3, 4, 5, 6, 7, 8, 9, 10, 11, 12, 13, 14]

/-- Three bars, two of which share the close price 10 with volume 5 each
while the third closes at 20 with the single largest volume 6. -/
def bars3 : List Bar :=
  [⟨11, 9, 10, some 5⟩, ⟨11, 9, 10, some 5⟩, ⟨21, 19, 20, some 6⟩]

/-- A single bar whose volume is present but zero. -/
def zeroVolBar : Bar := ⟨6, 4, 5, some 0⟩

/-- A two-bar series with present volumes, used as a concrete input. -/
def barsW : List Bar :=
  [⟨6, 4, 5, some 3⟩, ⟨8, 2, 7, some 9⟩]

/-- A flag row with no rule firing. -/
def flagsNone : Flags := ⟨false, false, false, false, false⟩

/-- A flag row with only the MACD-cross rule firing. -/
def flagsMacd : Flags := ⟨true, false, false, false, false⟩

/-- A flag row with the RSI and ADX rules firing simultaneously. -/
def flagsRsiAdx : Flags := ⟨false, true, false, false, true⟩

/-- A flag row with every rule firing. -/
def flagsAll : Flags := ⟨true, true, true, true, true⟩

/-- If any of the five entry columns is set, the if/elif chain of
`execute_trades` produces one of the labelled buy strings. -/
theorem isBuyAct_buyLabel (f : Flags) (h : f.anyRule = true) :
    isBuyAct (buyLabel f) = true := by
  unfold buyLabel
  split
  · rfl
  · split
    · rfl
    · split
      · rfl
      · split
        · rfl
        · split
          · rfl
          · exfalso
            simp_all [Flags.anyRule]

/-- No iteration of the trade loop emits the string `'wait'`. -/
theorem tradeStep_fst_ne_wait (s : Bool) (f : Flags × Flags) :
    (tradeStep s f).1 ≠ "wait" := by
  rcases s with _ | _
  · show ((if f.1.anyRule = true then (buyLabel f.1, true) else ("hold", false)).1 ≠ "wait")
    by_cases ha : f.1.anyRule = true
    · rw [if_pos ha]
      show buyLabel f.1 ≠ "wait"
      intro hw
      have hb := isBuyAct_buyLabel f.1 ha
      rw [hw] at hb
      exact absurd hb (by decide)
    · rw [if_neg ha]
      show "hold" ≠ "wait"
      decide
  · show ((if f.2.anyRule = true then ("sell", false) else ("hold", true)).1 ≠ "wait")
    by_cases ha : f.2.anyRule = true
    · rw [if_pos ha]
      show "sell" ≠ "wait"
      decide
    · rw [if_neg ha]
      show "hold" ≠ "wait"
      decide

/-- The string `'wait'` never appears in the action column, from any
starting state. -/
theorem wait_not_mem_tradeGo (flags : List (Flags × Flags)) :
    ∀ s : Bool, "wait" ∉ tradeGo s flags := by
  induction flags with
  | nil => intro s; simp [tradeGo]
  | cons f rest ih =>
    intro s
    simp only [tradeGo, List.mem_cons, not_or]
    refine ⟨?_, ih _⟩
    intro hw
    exact tradeStep_fst_ne_wait s f hw.symm

/-- Claim C10: the trade simulator never emits the Wait action; whenever
the entry-row disjunction holds, one of the five rule columns is set, so
the bar is labelled with a reasoned Buy and the wait branch is dead code. -/
theorem execute_trades_never_wait (flags : List (Flags × Flags)) :
    (execute_trades flags).count "wait" = 0 := by
  rw [List.count_eq_zero]
  exact wait_not_mem_tradeGo flags false

/-- Claim C4 counterexample: for one day of weekly bars the window sizer
returns `0`, not the claimed `max 1 (floor (1 * 1440 / 10080)) = 1`. -/
theorem intervals_per_period_no_min_clamp :
    intervals_per_period "1wk" 1 = some 0 ∧
      max 1 (1 * 1440 / 10080) = 1 ∧ (0 : Nat) ≠ 1 := by
  refine ⟨by decide, by decide, by decide⟩

/-- Claim C4 (amended): for every interval in the fixed mapping the window
sizer returns exactly `floor (days * 1440 / minutes_per_bar)` with no
minimum clamp (the result is 0 whenever `days * 1440 < minutes_per_bar`);
in particular `bars_for(50,'1d') = 50`, `bars_for(50,'1h') = 1200` and
`bars_for(14,'1wk') = 2`. -/
theorem intervals_per_period_floor (days : Nat) (interval : String) (m : Nat)
    (h : interval_duration_minutes interval = some m) :
    intervals_per_period interval days = some (days * 1440 / m) ∧
      intervals_per_period "1d" 50 = some 50 ∧
      intervals_per_period "1h" 50 = some 1200 ∧
      intervals_per_period "1wk" 14 = some 2 := by
  refine ⟨?_, by decide, by decide, by decide⟩
  simp [intervals_per_period, h]

/-- Witness for C4's amended theorem at days = 1, interval = `'1wk'`. -/
theorem intervals_per_period_floor_witness :
    interval_duration_minutes "1wk" = some 10080 ∧
      (intervals_per_period "1wk" 1 = some (1 * 1440 / 10080) ∧
        intervals_per_period "1d" 50 = some 50 ∧
        intervals_per_period "1h" 50 = some 1200 ∧
        intervals_per_period "1wk" 14 = some 2) :=
  ⟨by decide, intervals_per_period_floor 1 "1wk" 10080 (by decide)⟩

/-- Claim C8 counterexample: with `MACD = [0, 1]` and `SignalLine = [0, 0]`
the previous bar sits exactly on the signal line (`0 ≤ 0`) and the current
bar is strictly above (`1 > 0`), yet the entry flag is false, because the
source requires a strict `<` on the previous bar. -/
theorem macd_cross_boundary_counterexample :
    macd_cross_entry [0, 1] [0, 0] 1 = false ∧ (0 : ℚ) ≤ 0 ∧ (0 : ℚ) < 1 := by
  refine ⟨by decide, le_refl 0, by norm_num⟩

/-- Claim C8 (amended): for every bar index `i + 1` with all four cells
present, the MACD-cross entry rule fires iff the previous bar is strictly
below the signal line and the current bar strictly above; equality at the
previous bar does not count as a cross. -/
theorem macd_cross_strict_iff (macd signal : List ℚ) (i : Nat) (m1 s1 m0 s0 : ℚ)
    (h1 : macd[i + 1]? = some m1) (h2 : signal[i + 1]? = some s1)
    (h3 : macd[i]? = some m0) (h4 : signal[i]? = some s0) :
    macd_cross_entry macd signal (i + 1) = true ↔ (s1 < m1 ∧ m0 < s0) := by
  simp [macd_cross_entry, h1, h2, h3, h4]

/-- Witness for C8's amended theorem on a genuine strict cross. -/
theorem macd_cross_strict_iff_witness :
    (([0, 1] : List ℚ)[1]? = some 1 ∧ ([1, 0] : List ℚ)[1]? = some 0 ∧
        ([0, 1] : List ℚ)[0]? = some 0 ∧ ([1, 0] : List ℚ)[0]? = some 1) ∧
      (macd_cross_entry [0, 1] [1, 0] 1 = true ↔ ((0 : ℚ) < 1 ∧ (0 : ℚ) < 1)) :=
  ⟨⟨rfl, rfl, rfl, rfl⟩, macd_cross_strict_iff [0, 1] [1, 0] 0 1 0 0 1 rfl rfl rfl rfl⟩

/-- Claim C2 counterexample: on 14 strictly rising closes with the daily
14-day window, the final bar has trailing average loss exactly 0, and the
RSI column reports 100 there (the infinite ratio case), not the claimed
neutral 50. -/
theorem rsi_all_gain_counterexample :
    avgLoss closes14 14 13 = some 0 ∧
      (calculate_rsi closes14 "1d").bind (fun l => l[13]?) = some 100 ∧
      (100 : ℚ) ≠ 50 := by
  have hl : avgLoss closes14 14 13 = some 0 := by
    norm_num [avgLoss, sumBack, lossAt, closes14]
  have hg : avgGain closes14 14 13 = some (13 / 14) := by
    norm_num [avgGain, sumBack, gainAt, closes14]
  have hr : rsiAt closes14 14 13 = 100 := by
    rw [rsiAt, hg, hl]
    norm_num
  have hw : intervals_per_period "1d" 14 = some 14 := by decide
  refine ⟨hl, ?_, by norm_num⟩
  rw [calculate_rsi, hw]
  show ((List.range closes14.length).map (rsiAt closes14 14))[13]? = some 100
  have hlen : closes14.length = 14 := by decide
  rw [hlen, List.getElem?_map, List.getElem?_range (by norm_num : 13 < 14)]
  simp [hr]

/-- Claim C2 (amended): the RSI cell is the neutral 50 exactly in the NaN
cases — while the rolling window has not filled, and when both trailing
averages are zero (the 0/0 ratio); when the trailing average loss is zero
but the trailing average gain is positive the ratio is infinite and the
cell reports 100, not 50. -/
theorem rsi_sentinel_cases (closes : List ℚ) (w i : Nat) :
    (avgLoss closes w i = none → rsiAt closes w i = 50) ∧
      (avgLoss closes w i = some 0 → avgGain closes w i = some 0 →
        rsiAt closes w i = 50) ∧
      (∀ g : ℚ, avgLoss closes w i = some 0 → avgGain closes w i = some g →
        0 < g → rsiAt closes w i = 100) := by
  refine ⟨?_, ?_, ?_⟩
  · intro hl
    have hg : avgGain closes w i = none := by
      unfold avgGain
      unfold avgLoss at hl
      by_cases h : i + 1 < w
      · rw [if_pos h]
      · rw [if_neg h] at hl
        exact absurd hl (by simp)
    simp [rsiAt, hg]
  · intro hl hg
    simp [rsiAt, hg, hl]
  · intro g hl hg hgpos
    simp [rsiAt, hg, hl, hgpos, lt_irrefl]

/-- Witness for C2's amended theorem: a flat two-close series with window 1
has both averages zero at bar 1 and reports 50. -/
theorem rsi_sentinel_cases_witness :
    avgLoss [(1 : ℚ), 1] 1 1 = some 0 ∧ avgGain [(1 : ℚ), 1] 1 1 = some 0 ∧
      rsiAt [(1 : ℚ), 1] 1 1 = 50 :=
  ⟨by norm_num [avgLoss, sumBack, lossAt],
    by norm_num [avgGain, sumBack, gainAt],
    (rsi_sentinel_cases [(1 : ℚ), 1] 1 1).2.1
      (by norm_num [avgLoss, sumBack, lossAt])
      (by norm_num [avgGain, sumBack, gainAt])⟩

/-- Claim C3: at a one-bar series whose MACD-cross entry flag fires, the
simulator emits the single labelled buy `'buy (MACD cross)'`, but the
result summary — which selects rows by the exact comparison
`action == 'buy'` — reports 0 buys and an empty buy-timestamp list, while
the action sequence contains exactly one Buy action. -/
theorem display_results_missed_buys :
    execute_trades [(flagsMacd, flagsNone)] = ["buy (MACD cross)"] ∧
      countBuyActions (execute_trades [(flagsMacd, flagsNone)]) = 1 ∧
      display_results [0] (execute_trades [(flagsMacd, flagsNone)]) =
        (0, 0, [], []) := by
  refine ⟨by decide, by decide, by decide⟩

/-- The action column has one entry per bar. -/
theorem tradeGo_length (flags : List (Flags × Flags)) :
    ∀ s : Bool, (tradeGo s flags).length = flags.length := by
  induction flags with
  | nil => intro s; rfl
  | cons f rest ih => intro s; simp [tradeGo, ih]

/-- The action at index `i` is the step taken from the state held before
bar `i`. -/
theorem tradeGo_getElem? (flags : List (Flags × Flags)) :
    ∀ (s : Bool) (i : Nat) (f : Flags × Flags), flags[i]? = some f →
      (tradeGo s flags)[i]? = some (tradeStep (stateBefore s flags i) f).1 := by
  induction flags with
  | nil => intro s i f h; simp at h
  | cons g rest ih =>
    intro s i f h
    match i with
    | 0 =>
      rw [List.getElem?_cons_zero] at h
      injection h with h
      subst h
      simp [tradeGo, stateBefore]
    | n + 1 =>
      rw [List.getElem?_cons_succ] at h
      have := ih (tradeStep s g).2 n f h
      simpa [tradeGo, stateBefore] using this

/-- Unfolding one step of the state evolution. -/
theorem stateBefore_succ (flags : List (Flags × Flags)) :
    ∀ (s : Bool) (i : Nat) (f : Flags × Flags), flags[i]? = some f →
      stateBefore s flags (i + 1) = (tradeStep (stateBefore s flags i) f).2 := by
  induction flags with
  | nil => intro s i f h; simp at h
  | cons g rest ih =>
    intro s i f h
    match i with
    | 0 =>
      rw [List.getElem?_cons_zero] at h
      injection h with h
      subst h
      simp [stateBefore]
    | n + 1 =>
      rw [List.getElem?_cons_succ] at h
      have := ih (tradeStep s g).2 n f h
      simpa [stateBefore] using this

/-- Wrappers restating the two lemmas above for `execute_trades`. -/
theorem execute_trades_length (flags : List (Flags × Flags)) :
    (execute_trades flags).length = flags.length :=
  tradeGo_length flags false

/-- Access into the action sequence of `execute_trades`. -/
theorem execute_trades_getElem? (flags : List (Flags × Flags)) (i : Nat)
    (f : Flags × Flags) (h : flags[i]? = some f) :
    (execute_trades flags)[i]? = some (tradeStep (stateBefore false flags i) f).1 :=
  tradeGo_getElem? flags false i f h

/-- A step emits a Buy action exactly from the Flat state with a firing
entry row. -/
theorem tradeStep_buy_iff (s : Bool) (f : Flags × Flags) :
    isBuyAct (tradeStep s f).1 = true ↔ (s = false ∧ f.1.anyRule = true) := by
  rcases s with _ | _
  · show isBuyAct ((if f.1.anyRule = true then (buyLabel f.1, true) else ("hold", false)).1) = true ↔ _
    by_cases ha : f.1.anyRule = true
    · rw [if_pos ha]
      show isBuyAct (buyLabel f.1) = true ↔ _
      simp [ha, isBuyAct_buyLabel f.1 ha]
    · rw [if_neg ha]
      show isBuyAct "hold" = true ↔ _
      constructor
      · intro h
        exact absurd h (by decide)
      · rintro ⟨_, hr⟩
        exact absurd hr ha
  · show isBuyAct ((if f.2.anyRule = true then ("sell", false) else ("hold", true)).1) = true ↔ _
    by_cases ha : f.2.anyRule = true
    · rw [if_pos ha]
      constructor
      · intro h
        exact absurd h (by decide)
      · rintro ⟨h, _⟩
        exact absurd h (by decide)
    · rw [if_neg ha]
      constructor
      · intro h
        exact absurd h (by decide)
      · rintro ⟨h, _⟩
        exact absurd h (by decide)

/-- A step emits `'sell'` exactly from the InPosition state with a firing
exit row. -/
theorem tradeStep_sell_iff (s : Bool) (f : Flags × Flags) :
    (tradeStep s f).1 = "sell" ↔ (s = true ∧ f.2.anyRule = true) := by
  rcases s with _ | _
  · show ((if f.1.anyRule = true then (buyLabel f.1, true) else ("hold", false)).1 = "sell") ↔ _
    by_cases ha : f.1.anyRule = true
    · rw [if_pos ha]
      show (buyLabel f.1 = "sell") ↔ _
      constructor
      · intro h
        have hb := isBuyAct_buyLabel f.1 ha
        rw [h] at hb
        exact absurd hb (by decide)
      · rintro ⟨h, _⟩
        exact absurd h (by decide)
    · rw [if_neg ha]
      show ("hold" = "sell") ↔ _
      constructor
      · intro h
        exact absurd h (by decide)
      · rintro ⟨h, _⟩
        exact absurd h (by decide)
  · show ((if f.2.anyRule = true then ("sell", false) else ("hold", true)).1 = "sell") ↔ _
    by_cases ha : f.2.anyRule = true
    · rw [if_pos ha]
      simp [ha]
    · rw [if_neg ha]
      show ("hold" = "sell") ↔ _
      constructor
      · intro h
        exact absurd h (by decide)
      · rintro ⟨_, h⟩
        exact absurd h ha

/-- From Flat, the next state is exactly the entry-row disjunction. -/
theorem tradeStep_snd_false (f : Flags × Flags) :
    (tradeStep false f).2 = f.1.anyRule := by
  show ((if f.1.anyRule = true then (buyLabel f.1, true) else ("hold", false)).2) = f.1.anyRule
  by_cases ha : f.1.anyRule = true
  · rw [if_pos ha, ha]
  · rw [if_neg ha]
    have h0 : f.1.anyRule = false := by revert ha; cases f.1.anyRule <;> simp
    rw [h0]

/-- From InPosition, the next state is the negated exit-row disjunction. -/
theorem tradeStep_snd_true (f : Flags × Flags) :
    (tradeStep true f).2 = !f.2.anyRule := by
  show ((if f.2.anyRule = true then ("sell", false) else ("hold", true)).2) = !f.2.anyRule
  by_cases ha : f.2.anyRule = true
  · rw [if_pos ha, ha]
    rfl
  · rw [if_neg ha]
    have h0 : f.2.anyRule = false := by revert ha; cases f.2.anyRule <;> simp
    rw [h0]
    rfl

/-- A step from InPosition that lands Flat emits `'sell'`. -/
theorem sell_of_flip_down (f : Flags × Flags)
    (h : (tradeStep true f).2 = false) : (tradeStep true f).1 = "sell" := by
  rw [tradeStep_snd_true] at h
  have ha : f.2.anyRule = true := by revert h; cases f.2.anyRule <;> simp
  exact (tradeStep_sell_iff true f).mpr ⟨rfl, ha⟩

/-- A step from Flat that lands InPosition emits a Buy action. -/
theorem buy_of_flip_up (f : Flags × Flags)
    (h : (tradeStep false f).2 = true) : isBuyAct (tradeStep false f).1 = true := by
  rw [tradeStep_snd_false] at h
  exact (tradeStep_buy_iff false f).mpr ⟨rfl, h⟩

/-- Whenever the state goes from InPosition at bar `a` to Flat at bar `b`,
a `'sell'` is emitted at some bar in `[a, b)`. -/
theorem sell_between_states (flags : List (Flags × Flags)) :
    ∀ a b : Nat, a ≤ b → b ≤ flags.length →
      stateBefore false flags a = true → stateBefore false flags b = false →
      ∃ k, a ≤ k ∧ k < b ∧ (execute_trades flags)[k]? = some "sell" := by
  intro a b
  induction b with
  | zero =>
    intro hab _ ha hb
    have ha0 : a = 0 := Nat.le_zero.mp hab
    rw [ha0, hb] at ha
    exact absurd ha (by decide)
  | succ c ihc =>
    intro hab hble ha hb
    rcases Nat.lt_or_ge a (c + 1) with hlt | hge
    · have hac : a ≤ c := Nat.lt_succ_iff.mp hlt
      have hcl : c < flags.length := hble
      obtain ⟨f, hf⟩ : ∃ f, flags[c]? = some f :=
        ⟨_, List.getElem?_eq_getElem hcl⟩
      by_cases hsc : stateBefore false flags c = true
      · have hstep := stateBefore_succ flags false c f hf
        rw [hsc] at hstep
        have h2 : (tradeStep true f).2 = false := by
          rw [← hstep]
          exact hb
        have h1 : (tradeStep true f).1 = "sell" := sell_of_flip_down f h2
        refine ⟨c, hac, Nat.lt_succ_self c, ?_⟩
        rw [execute_trades_getElem? flags c f hf, hsc, h1]
      · have hscf : stateBefore false flags c = false := by
          revert hsc; cases stateBefore false flags c <;> simp
        obtain ⟨k, hk1, hk2, hk3⟩ := ihc hac (Nat.le_of_succ_le hble) ha hscf
        exact ⟨k, hk1, Nat.lt_succ_of_lt hk2, hk3⟩
    · have haeq : a = c + 1 := le_antisymm hab hge
      rw [haeq, hb] at ha
      exact absurd ha (by decide)

/-- Whenever the machine holds InPosition before bar `j`, some earlier bar
emitted a Buy action, and the state stays InPosition from right after that
bar through bar `j`. -/
theorem buy_before_position (flags : List (Flags × Flags)) :
    ∀ j : Nat, j ≤ flags.length → stateBefore false flags j = true →
      ∃ i, i < j ∧
        (∃ a, (execute_trades flags)[i]? = some a ∧ isBuyAct a = true) ∧
        ∀ k, i < k → k ≤ j → stateBefore false flags k = true := by
  intro j
  induction j with
  | zero =>
    intro _ h0
    have hz : stateBefore false flags 0 = false := by cases flags <;> rfl
    rw [hz] at h0
    exact absurd h0 (by decide)
  | succ c ihc =>
    intro hle hsucc
    have hcl : c < flags.length := hle
    obtain ⟨f, hf⟩ : ∃ f, flags[c]? = some f :=
      ⟨_, List.getElem?_eq_getElem hcl⟩
    by_cases hsc : stateBefore false flags c = true
    · obtain ⟨i, hi1, hi2, hi3⟩ := ihc (Nat.le_of_succ_le hle) hsc
      refine ⟨i, Nat.lt_succ_of_lt hi1, hi2, ?_⟩
      intro k hik hk
      rcases Nat.eq_or_lt_of_le hk with hkeq | hklt
      · rw [hkeq]
        exact hsucc
      · exact hi3 k hik (Nat.lt_succ_iff.mp hklt)
    · have hscf : stateBefore false flags c = false := by
        revert hsc; cases stateBefore false flags c <;> simp
      have hstep := stateBefore_succ flags false c f hf
      rw [hscf] at hstep
      have h2 : (tradeStep false f).2 = true := by
        rw [← hstep]
        exact hsucc
      have hbuy := buy_of_flip_up f h2
      refine ⟨c, Nat.lt_succ_self c, ⟨(tradeStep false f).1, ?_, hbuy⟩, ?_⟩
      · rw [execute_trades_getElem? flags c f hf, hscf]
      · intro k hck hk
        have hkeq : k = c + 1 := le_antisymm hk hck
        rw [hkeq]
        exact hsucc

/-- Claim C5: over every bar series and every entry/exit flag assignment,
the action sequence never holds two Buy actions without a `'sell'` strictly
between them, and every `'sell'` is preceded by a Buy with no other
`'sell'` in between (no pyramiding, no Sell while Flat). -/
theorem execute_trades_state_machine (flags : List (Flags × Flags)) :
    (∀ (i j : Nat) (a b : String), i < j → (execute_trades flags)[i]? = some a →
        (execute_trades flags)[j]? = some b → isBuyAct a = true → isBuyAct b = true →
        ∃ k : Nat, i < k ∧ k < j ∧ (execute_trades flags)[k]? = some "sell") ∧
      (∀ j : Nat, (execute_trades flags)[j]? = some "sell" →
        ∃ (i : Nat) (a : String), i < j ∧ (execute_trades flags)[i]? = some a ∧
          isBuyAct a = true ∧
          ∀ k : Nat, i < k → k < j → (execute_trades flags)[k]? ≠ some "sell") := by
  constructor
  · intro i j a b hij hia hjb hba hbb
    have hjlen : j < flags.length := by
      obtain ⟨h, _⟩ := List.getElem?_eq_some_iff.mp hjb
      rw [execute_trades_length] at h
      exact h
    have hilen : i < flags.length := lt_trans hij hjlen
    obtain ⟨fi, hfi⟩ : ∃ f, flags[i]? = some f :=
      ⟨_, List.getElem?_eq_getElem hilen⟩
    obtain ⟨fj, hfj⟩ : ∃ f, flags[j]? = some f :=
      ⟨_, List.getElem?_eq_getElem hjlen⟩
    have heqi := execute_trades_getElem? flags i fi hfi
    have heqj := execute_trades_getElem? flags j fj hfj
    have hai : a = (tradeStep (stateBefore false flags i) fi).1 :=
      Option.some.inj (hia.symm.trans heqi)
    have haj : b = (tradeStep (stateBefore false flags j) fj).1 :=
      Option.some.inj (hjb.symm.trans heqj)
    rw [hai] at hba
    rw [haj] at hbb
    obtain ⟨hSi, hei⟩ := (tradeStep_buy_iff _ fi).mp hba
    obtain ⟨hSj, _⟩ := (tradeStep_buy_iff _ fj).mp hbb
    have hSi1 : stateBefore false flags (i + 1) = true := by
      rw [stateBefore_succ flags false i fi hfi, hSi, tradeStep_snd_false, hei]
    obtain ⟨k, hk1, hk2, hk3⟩ :=
      sell_between_states flags (i + 1) j hij (le_of_lt hjlen) hSi1 hSj
    exact ⟨k, hk1, hk2, hk3⟩
  · intro j hsell
    have hjlen : j < flags.length := by
      obtain ⟨h, _⟩ := List.getElem?_eq_some_iff.mp hsell
      rw [execute_trades_length] at h
      exact h
    obtain ⟨fj, hfj⟩ : ∃ f, flags[j]? = some f :=
      ⟨_, List.getElem?_eq_getElem hjlen⟩
    have heqj := execute_trades_getElem? flags j fj hfj
    have hstep_sell : (tradeStep (stateBefore false flags j) fj).1 = "sell" :=
      (Option.some.inj (hsell.symm.trans heqj)).symm
    obtain ⟨hSj, _⟩ := (tradeStep_sell_iff _ fj).mp hstep_sell
    obtain ⟨i, hij, ⟨a, hia, hba⟩, hall⟩ :=
      buy_before_position flags j (le_of_lt hjlen) hSj
    refine ⟨i, a, hij, hia, hba, ?_⟩
    intro k hik hkj hk_sell
    have hklen : k < flags.length := lt_trans hkj hjlen
    obtain ⟨fk, hfk⟩ : ∃ f, flags[k]? = some f :=
      ⟨_, List.getElem?_eq_getElem hklen⟩
    have heqk := execute_trades_getElem? flags k fk hfk
    have hk_eq : (tradeStep (stateBefore false flags k) fk).1 = "sell" :=
      (Option.some.inj (hk_sell.symm.trans heqk)).symm
    obtain ⟨hSk, hexk⟩ := (tradeStep_sell_iff _ fk).mp hk_eq
    have h2 : (tradeStep (stateBefore false flags k) fk).2 = false := by
      rw [hSk, tradeStep_snd_true, hexk]
      rfl
    have hSk1 : stateBefore false flags (k + 1) = false := by
      rw [stateBefore_succ flags false k fk hfk]
      exact h2
    have hSk1t : stateBefore false flags (k + 1) = true :=
      hall (k + 1) (Nat.lt_succ_of_lt hik) (Nat.succ_le_of_lt hkj)
    rw [hSk1t] at hSk1
    exact absurd hSk1 (by decide)

/-- Witness for C5 on the three-bar run buy, sell, buy. -/
theorem execute_trades_state_machine_witness :
    (∃ k : Nat, 0 < k ∧ k < 2 ∧
        (execute_trades [(flagsMacd, flagsNone), (flagsNone, flagsAll),
          (flagsRsiAdx, flagsNone)])[k]? = some "sell") ∧
      (∃ (i : Nat) (a : String), i < 1 ∧
        (execute_trades [(flagsMacd, flagsNone), (flagsNone, flagsAll),
          (flagsRsiAdx, flagsNone)])[i]? = some a ∧ isBuyAct a = true ∧
        ∀ k : Nat, i < k → k < 1 →
          (execute_trades [(flagsMacd, flagsNone), (flagsNone, flagsAll),
            (flagsRsiAdx, flagsNone)])[k]? ≠ some "sell") :=
  ⟨(execute_trades_state_machine
      [(flagsMacd, flagsNone), (flagsNone, flagsAll), (flagsRsiAdx, flagsNone)]).1
      0 2 "buy (MACD cross)" "buy (RSI)" (by decide) (by decide) (by decide)
      (by decide) (by decide),
    (execute_trades_state_machine
      [(flagsMacd, flagsNone), (flagsNone, flagsAll), (flagsRsiAdx, flagsNone)]).2
      1 (by decide)⟩

/-- On a firing entry row, the if/elif chain of `execute_trades` labels the
buy with the first rule of the fixed priority order that fired. -/
theorem buyLabel_find (f : Flags) (h : f.anyRule = true) :
    ∃ r : Rule, priorityOrder.find? (ruleFires f) = some r ∧ ruleFires f r = true ∧
      buyLabel f = "buy (" ++ reasonName r ++ ")" := by
  rcases f with ⟨m, r, b, o, a⟩
  cases m with
  | true => exact ⟨.macdCross, by simp [priorityOrder, ruleFires], rfl, rfl⟩
  | false =>
    cases r with
    | true => exact ⟨.rsiRule, by simp [priorityOrder, ruleFires], rfl, rfl⟩
    | false =>
      cases b with
      | true => exact ⟨.bollinger, by simp [priorityOrder, ruleFires], rfl, rfl⟩
      | false =>
        cases o with
        | true => exact ⟨.obvRule, by simp [priorityOrder, ruleFires], rfl, rfl⟩
        | false =>
          cases a with
          | true => exact ⟨.adxRule, by simp [priorityOrder, ruleFires], rfl, rfl⟩
          | false => exact absurd h (by decide)

/-- Claim C7: on every Flat bar where more than one entry rule fires, the
emitted action is a Buy labelled with the first firing rule in the fixed
priority order MACD cross, RSI, Bollinger, OBV, ADX (`List.find?` over the
priority list). -/
theorem buy_reason_priority (flags : List (Flags × Flags)) (i : Nat) (en ex : Flags)
    (hget : flags[i]? = some (en, ex)) (hs : stateBefore false flags i = false)
    (hmult : 2 ≤ countFiring en) :
    ∃ r : Rule, priorityOrder.find? (ruleFires en) = some r ∧ ruleFires en r = true ∧
      (execute_trades flags)[i]? = some ("buy (" ++ reasonName r ++ ")") := by
  have hany : en.anyRule = true := by
    rcases en with ⟨m, r, b, o, a⟩
    cases m <;> cases r <;> cases b <;> cases o <;> cases a <;>
      first
        | rfl
        | (exfalso; revert hmult; decide)
  obtain ⟨r, hfind, hfires, hlabel⟩ := buyLabel_find en hany
  refine ⟨r, hfind, hfires, ?_⟩
  rw [execute_trades_getElem? flags i (en, ex) hget, hs]
  show some ((if Flags.anyRule (en, ex).1 = true then (buyLabel (en, ex).1, true)
    else ("hold", false)).1) = _
  rw [if_pos hany]
  show some (buyLabel en) = _
  rw [hlabel]

/-- Witness for C7 on a bar where the RSI and ADX rules fire together. -/
theorem buy_reason_priority_witness :
    ([(flagsRsiAdx, flagsNone)] : List (Flags × Flags))[0]? = some (flagsRsiAdx, flagsNone) ∧
      stateBefore false [(flagsRsiAdx, flagsNone)] 0 = false ∧
      2 ≤ countFiring flagsRsiAdx ∧
      ∃ r : Rule, priorityOrder.find? (ruleFires flagsRsiAdx) = some r ∧
        ruleFires flagsRsiAdx r = true ∧
        (execute_trades [(flagsRsiAdx, flagsNone)])[0]? =
          some ("buy (" ++ reasonName r ++ ")") :=
  ⟨rfl, rfl, by decide,
    buy_reason_priority [(flagsRsiAdx, flagsNone)] 0 flagsRsiAdx flagsNone rfl rfl
      (by decide)⟩

/-- Membership in the present-volume entry list: the entries are exactly
the positions whose bar carries a present volume, shifted by the start
index. -/
theorem volEntriesFrom_mem (l : List Bar) :
    ∀ (s j : Nat) (b : Bar) (v : ℚ),
      ((j, b, v) ∈ volEntriesFrom s l ↔
        ∃ k : Nat, j = s + k ∧ l[k]? = some b ∧ b.volume = some v) := by
  induction l with
  | nil =>
    intro s j b v
    constructor
    · intro h
      simp [volEntriesFrom] at h
    · rintro ⟨k, _, hk, _⟩
      simp at hk
  | cons c rest ih =>
    intro s j b v
    rcases hvol : c.volume with _ | v0
    · rw [volEntriesFrom, hvol]
      rw [ih (s + 1) j b v]
      constructor
      · rintro ⟨k, hjk, hget, hbv⟩
        exact ⟨k + 1, by omega, by rw [List.getElem?_cons_succ]; exact hget, hbv⟩
      · rintro ⟨k, hjk, hget, hbv⟩
        match k with
        | 0 =>
          rw [List.getElem?_cons_zero] at hget
          injection hget with hget
          rw [hget] at hvol
          rw [hvol] at hbv
          exact absurd hbv (by simp)
        | k' + 1 =>
          rw [List.getElem?_cons_succ] at hget
          exact ⟨k', by omega, hget, hbv⟩
    · rw [volEntriesFrom, hvol]
      constructor
      · intro h
        rcases List.mem_cons.mp h with heq | hmem
        · injection heq with h1 h2
          injection h2 with h2a h2b
          refine ⟨0, by omega, ?_, ?_⟩
          · rw [List.getElem?_cons_zero, h2a]
          · rw [h2a, hvol, h2b]
        · obtain ⟨k, hjk, hget, hbv⟩ := (ih (s + 1) j b v).mp hmem
          exact ⟨k + 1, by omega, by rw [List.getElem?_cons_succ]; exact hget, hbv⟩
      · rintro ⟨k, hjk, hget, hbv⟩
        match k with
        | 0 =>
          rw [List.getElem?_cons_zero] at hget
          injection hget with hget
          subst hget
          rw [hvol] at hbv
          injection hbv with hbv
          subst hbv
          have hj : j = s := by omega
          subst hj
          exact List.mem_cons_self _ _
        | k' + 1 =>
          rw [List.getElem?_cons_succ] at hget
          exact List.mem_cons_of_mem _ ((ih (s + 1) j b v).mpr ⟨k', by omega, hget, hbv⟩)

/-- Every entry's position is at least the start index. -/
theorem volEntriesFrom_lb (l : List Bar) :
    ∀ s : Nat, ∀ e ∈ volEntriesFrom s l, s ≤ e.1 := by
  induction l with
  | nil => intro s e he; simp [volEntriesFrom] at he
  | cons c rest ih =>
    intro s e he
    rw [volEntriesFrom] at he
    rcases hvol : c.volume with _ | v0 <;> rw [hvol] at he
    · exact le_trans (Nat.le_succ s) (ih (s + 1) e he)
    · rcases List.mem_cons.mp he with rfl | hmem
      · exact le_refl s
      · exact le_trans (Nat.le_succ s) (ih (s + 1) e hmem)

/-- The entry positions are strictly increasing along the list. -/
theorem volEntriesFrom_pairwise (l : List Bar) :
    ∀ s : Nat, (volEntriesFrom s l).Pairwise (fun x y => x.1 < y.1) := by
  induction l with
  | nil => intro s; simp [volEntriesFrom]
  | cons c rest ih =>
    intro s
    rw [volEntriesFrom]
    rcases hvol : c.volume with _ | v0
    · exact ih (s + 1)
    · rw [List.pairwise_cons]
      refine ⟨?_, ih (s + 1)⟩
      intro e he
      exact lt_of_lt_of_le (Nat.lt_succ_self s) (volEntriesFrom_lb rest (s + 1) e he)

/-- The entry list is empty exactly when every volume cell is absent. -/
theorem volEntriesFrom_eq_nil_iff (l : List Bar) :
    ∀ s : Nat, (volEntriesFrom s l = [] ↔ ∀ b ∈ l, b.volume = none) := by
  induction l with
  | nil => intro s; simp [volEntriesFrom]
  | cons c rest ih =>
    intro s
    rw [volEntriesFrom]
    rcases hvol : c.volume with _ | v0
    · rw [ih (s + 1)]
      constructor
      · intro h b hb
        rcases List.mem_cons.mp hb with rfl | hmem
        · exact hvol
        · exact h b hmem
      · intro h b hb
        exact h b (List.mem_cons_of_mem _ hb)
    · constructor
      · intro h
        exact absurd h (by simp)
      · intro h
        have := h c (List.mem_cons_self _ _)
        rw [hvol] at this
        exact absurd this (by simp)

/-- `idxmax` fails only on the empty series. -/
theorem firstArgmax_eq_none (l : List (Nat × Bar × ℚ)) :
    firstArgmax l = none ↔ l = [] := by
  cases l with
  | nil => simp [firstArgmax]
  | cons e rest =>
    rw [firstArgmax]
    rcases h : firstArgmax rest with _ | m
    · simp
    · by_cases hc : e.2.2 < m.2.2 <;> simp [hc]

/-- `idxmax` splits the series into a strictly smaller prefix, the first
maximal entry, and a no-larger suffix. -/
theorem firstArgmax_decomp (l : List (Nat × Bar × ℚ)) :
    ∀ m : Nat × Bar × ℚ, firstArgmax l = some m →
      ∃ l₁ l₂, l = l₁ ++ m :: l₂ ∧ (∀ x ∈ l₁, x.2.2 < m.2.2) ∧
        ∀ x ∈ l₂, x.2.2 ≤ m.2.2 := by
  induction l with
  | nil => intro m h; simp [firstArgmax] at h
  | cons e rest ih =>
    intro m h
    rw [firstArgmax] at h
    rcases hrec : firstArgmax rest with _ | m'
    · rw [hrec] at h
      injection h with h
      subst h
      have hnil : rest = [] := (firstArgmax_eq_none rest).mp hrec
      subst hnil
      exact ⟨[], [], rfl, by simp, by simp⟩
    · have h' : (if e.2.2 < m'.2.2 then some m' else some e) = some m := by
        rw [hrec] at h
        exact h
      obtain ⟨r₁, r₂, hrest, hlt, hle⟩ := ih m' hrec
      by_cases hc : e.2.2 < m'.2.2
      · rw [if_pos hc] at h'
        injection h' with h'
        subst h'
        refine ⟨e :: r₁, r₂, by rw [hrest]; rfl, ?_, hle⟩
        intro x hx
        rcases List.mem_cons.mp hx with rfl | hx1
        · exact hc
        · exact hlt x hx1
      · rw [if_neg hc] at h'
        injection h' with h'
        subst h'
        refine ⟨[], rest, rfl, by simp, ?_⟩
        intro x hx
        rw [hrest] at hx
        rcases List.mem_append.mp hx with hx1 | hx2
        · exact le_trans (le_of_lt (hlt x hx1)) (not_lt.mp hc)
        · rcases List.mem_cons.mp hx2 with rfl | hx3
          · exact not_lt.mp hc
          · exact le_trans (hle x hx3) (not_lt.mp hc)

/-- `extractMax` fails only on the empty series. -/
theorem extractMax_eq_none (l : List (Nat × Bar × ℚ)) :
    extractMax l = none ↔ l = [] := by
  cases l with
  | nil => simp [extractMax]
  | cons e rest =>
    rw [extractMax]
    rcases h : extractMax rest with _ | p
    · simp
    · rcases p with ⟨m, rem⟩
      by_cases hc : e.2.2 < m.2.2 <;> simp [hc]

/-- `extractMax` removes one occurrence of the first maximal entry and the
remainder carries only entries of no larger volume. -/
theorem extractMax_decomp (l : List (Nat × Bar × ℚ)) :
    ∀ (m : Nat × Bar × ℚ) (rem : List (Nat × Bar × ℚ)), extractMax l = some (m, rem) →
      ∃ l₁ l₂, l = l₁ ++ m :: l₂ ∧ rem = l₁ ++ l₂ ∧ ∀ x ∈ rem, x.2.2 ≤ m.2.2 := by
  induction l with
  | nil => intro m rem h; simp [extractMax] at h
  | cons e rest ih =>
    intro m rem h
    rw [extractMax] at h
    rcases hrec : extractMax rest with _ | p
    · rw [hrec] at h
      injection h with h
      injection h with h1 h2
      subst h1
      subst h2
      have hnil : rest = [] := (extractMax_eq_none rest).mp hrec
      subst hnil
      exact ⟨[], [], rfl, rfl, by simp⟩
    · rcases p with ⟨m', rem'⟩
      have h' : (if e.2.2 < m'.2.2 then some (m', e :: rem') else some (e, rest)) =
          some (m, rem) := by
        rw [hrec] at h
        exact h
      obtain ⟨r₁, r₂, hrest, hrem', hle⟩ := ih m' rem' hrec
      by_cases hc : e.2.2 < m'.2.2
      · rw [if_pos hc] at h'
        injection h' with h'
        injection h' with h1 h2
        subst h1
        subst h2
        refine ⟨e :: r₁, r₂, by rw [hrest]; rfl, by rw [hrem']; rfl, ?_⟩
        intro x hx
        rcases List.mem_cons.mp hx with rfl | hx1
        · exact le_of_lt hc
        · exact hle x hx1
      · rw [if_neg hc] at h'
        injection h' with h'
        injection h' with h1 h2
        subst h1
        subst h2
        refine ⟨[], rest, rfl, rfl, ?_⟩
        intro x hx
        rw [hrest] at hx
        rcases List.mem_append.mp hx with hx1 | hx2
        · exact le_trans (hle x (by rw [hrem']; exact List.mem_append_left _ hx1))
            (not_lt.mp hc)
        · rcases List.mem_cons.mp hx2 with rfl | hx3
          · exact not_lt.mp hc
          · exact le_trans (hle x (by rw [hrem']; exact List.mem_append_right _ hx3))
              (not_lt.mp hc)

/-- Every selected entry comes from the input list. -/
theorem selectTop_subset :
    ∀ (n : Nat) (l : List (Nat × Bar × ℚ)), ∀ x ∈ selectTop n l, x ∈ l := by
  intro n
  induction n with
  | zero => intro l x hx; simp [selectTop] at hx
  | succ k ih =>
    intro l x hx
    rw [selectTop] at hx
    rcases hrec : extractMax l with _ | p
    · rw [hrec] at hx
      simp at hx
    · rcases p with ⟨m, rem⟩
      rw [hrec] at hx
      obtain ⟨l₁, l₂, hl, hrem, _⟩ := extractMax_decomp l m rem hrec
      rcases List.mem_cons.mp hx with rfl | hx2
      · rw [hl]
        exact List.mem_append_right _ (List.mem_cons_self _ _)
      · have hxrem := ih rem x hx2
        rw [hrem] at hxrem
        rw [hl]
        rcases List.mem_append.mp hxrem with h1 | h2
        · exact List.mem_append_left _ h1
        · exact List.mem_append_right _ (List.mem_cons_of_mem _ h2)

/-- The selection keeps `min n l.length` entries, like `nlargest(n)`. -/
theorem selectTop_length :
    ∀ (n : Nat) (l : List (Nat × Bar × ℚ)), (selectTop n l).length = min n l.length := by
  intro n
  induction n with
  | zero => intro l; simp [selectTop]
  | succ k ih =>
    intro l
    rw [selectTop]
    rcases hrec : extractMax l with _ | p
    · have hnil : l = [] := (extractMax_eq_none l).mp hrec
      subst hnil
      simp
    · rcases p with ⟨m, rem⟩
      obtain ⟨l₁, l₂, hl, hrem, _⟩ := extractMax_decomp l m rem hrec
      have hlen : l.length = rem.length + 1 := by
        rw [hl, hrem]
        simp [List.length_append]
        omega
      rw [List.length_cons, ih rem, hlen]
      omega

/-- Ranking property: every unselected entry has volume at most that of
every selected entry. -/
theorem selectTop_rank :
    ∀ (n : Nat) (l : List (Nat × Bar × ℚ)), ∀ e ∈ l, e ∉ selectTop n l →
      ∀ f ∈ selectTop n l, e.2.2 ≤ f.2.2 := by
  intro n
  induction n with
  | zero => intro l e _ _ f hf; simp [selectTop] at hf
  | succ k ih =>
    intro l e he hne f hf
    rw [selectTop] at hne hf
    rcases hrec : extractMax l with _ | p
    · rw [hrec] at hf
      simp at hf
    · rcases p with ⟨m, rem⟩
      rw [hrec] at hne hf
      obtain ⟨l₁, l₂, hl, hrem, hle⟩ := extractMax_decomp l m rem hrec
      have hne2 : e ≠ m ∧ e ∉ selectTop k rem := by
        constructor
        · rintro rfl
          exact hne (List.mem_cons_self _ _)
        · intro hm
          exact hne (List.mem_cons_of_mem _ hm)
      have herem : e ∈ rem := by
        rw [hl] at he
        rcases List.mem_append.mp he with h1 | h2
        · rw [hrem]
          exact List.mem_append_left _ h1
        · rcases List.mem_cons.mp h2 with rfl | h3
          · exact absurd rfl hne2.1
          · rw [hrem]
            exact List.mem_append_right _ h3
      rcases List.mem_cons.mp hf with rfl | hf2
      · exact hle e herem
      · exact ih rem e herem hne2.2 f hf2

/-- The selection has no duplicate entries when the input has none. -/
theorem selectTop_nodup :
    ∀ (n : Nat) (l : List (Nat × Bar × ℚ)), l.Nodup → (selectTop n l).Nodup := by
  intro n
  induction n with
  | zero => intro l _; simp [selectTop]
  | succ k ih =>
    intro l hnd
    rw [selectTop]
    rcases hrec : extractMax l with _ | p
    · simp
    · rcases p with ⟨m, rem⟩
      obtain ⟨l₁, l₂, hl, hrem, _⟩ := extractMax_decomp l m rem hrec
      rw [hl] at hnd
      have hnd2 : (m :: (l₁ ++ l₂)).Nodup := List.nodup_middle.mp hnd
      have hmnotin : m ∉ l₁ ++ l₂ := (List.nodup_cons.mp hnd2).1
      have hremnd : rem.Nodup := by
        rw [hrem]
        exact (List.nodup_cons.mp hnd2).2
      rw [List.nodup_cons]
      refine ⟨?_, ih rem hremnd⟩
      intro hmem
      have := selectTop_subset k rem m hmem
      rw [hrem] at this
      exact hmnotin this

/-- The selection of a nonempty list with positive budget is nonempty. -/
theorem selectTop_ne_nil (n : Nat) (l : List (Nat × Bar × ℚ)) (h : l ≠ []) :
    selectTop (n + 1) l ≠ [] := by
  rw [selectTop]
  rcases hrec : extractMax l with _ | p
  · exact absurd ((extractMax_eq_none l).mp hrec) h
  · rcases p with ⟨m, rem⟩
    simp

/-- `Series.max` is defined on every nonempty series. -/
theorem listMax_isSome (l : List ℚ) (h : l ≠ []) : ∃ m, listMax l = some m := by
  cases l with
  | nil => exact absurd rfl h
  | cons x rest =>
    rw [listMax]
    rcases listMax rest with _ | m
    · exact ⟨x, rfl⟩
    · exact ⟨max x m, rfl⟩

/-- `Series.min` is defined on every nonempty series. -/
theorem listMin_isSome (l : List ℚ) (h : l ≠ []) : ∃ m, listMin l = some m := by
  cases l with
  | nil => exact absurd rfl h
  | cons x rest =>
    rw [listMin]
    rcases listMin rest with _ | m
    · exact ⟨x, rfl⟩
    · exact ⟨min x m, rfl⟩

/-- With at least one present volume, the three guards of
`calculate_volume_profile` all pass and the result is built from `idxmax`
and `nlargest(10)`. -/
theorem calculate_volume_profile_of_ne (bars : List Bar)
    (hne : volEntries bars ≠ []) :
    calculate_volume_profile bars =
      ((firstArgmax (volEntries bars)).map (fun e => e.2.1.close),
        listMax ((selectTop 10 (volEntries bars)).map (fun e => e.2.1.high)),
        listMin ((selectTop 10 (volEntries bars)).map (fun e => e.2.1.low))) := by
  have hbne : bars ≠ [] := by
    rintro rfl
    exact hne rfl
  have h1 : bars.isEmpty = false := by
    cases bars with
    | nil => exact absurd rfl hbne
    | cons c rest => rfl
  have h2 : (volEntries bars).isEmpty = false := by
    rcases hv : volEntries bars with _ | ⟨c, rest⟩
    · exact absurd hv hne
    · rfl
  have htop : selectTop 10 (volEntries bars) ≠ [] := selectTop_ne_nil 9 _ hne
  have h3 : (selectTop 10 (volEntries bars)).isEmpty = false := by
    rcases hv : selectTop 10 (volEntries bars) with _ | ⟨c, rest⟩
    · exact absurd hv htop
    · rfl
  simp only [calculate_volume_profile, h1, h2, h3, Bool.false_eq_true, if_false]

/-- A present volume cell guarantees a nonempty entry list. -/
theorem volEntries_ne_nil_of_vol (bars : List Bar) (b : Bar) (v : ℚ)
    (hb : b ∈ bars) (hv : b.volume = some v) : volEntries bars ≠ [] := by
  obtain ⟨k, hk⟩ := List.mem_iff_getElem?.mp hb
  have hent : (k, b, v) ∈ volEntries bars :=
    (volEntriesFrom_mem bars 0 k b v).mpr ⟨k, by omega, hk, hv⟩
  rintro hnil
  rw [hnil] at hent
  exact absurd hent (List.not_mem_nil _)

/-- Claim C6 counterexample: the analysis returns the null triple
`(None, None, None)` on the empty series instead of failing with a typed
`EmptySeries` error, and on a series whose only volume is present but zero
it returns a full value triple instead of failing with `NoVolumeData`. -/
theorem volume_profile_null_tuple :
    calculate_volume_profile [] = (none, none, none) ∧
      calculate_volume_profile [zeroVolBar] = (some 5, some 6, some 4) := by
  constructor
  · rfl
  · rfl

/-- Claim C6 (amended): the analysis returns the sentinel null triple
`(None, None, None)` — which the caller tests for — when the series is
empty or when every volume cell is absent; whenever at least one volume
cell is present (zero volumes included) it returns a full
`{poc, vah, val}` triple of values. -/
theorem volume_profile_result_cases (bars : List Bar) :
    (bars = [] → calculate_volume_profile bars = (none, none, none)) ∧
      ((∀ b ∈ bars, b.volume = none) →
        calculate_volume_profile bars = (none, none, none)) ∧
      (∀ b ∈ bars, ∀ v : ℚ, b.volume = some v →
        ∃ p hq lq : ℚ, calculate_volume_profile bars = (some p, some hq, some lq)) := by
  refine ⟨?_, ?_, ?_⟩
  · rintro rfl
    rfl
  · intro hall
    have hnil : volEntries bars = [] := (volEntriesFrom_eq_nil_iff bars 0).mpr hall
    by_cases hb : bars = []
    · subst hb
      rfl
    · have h1 : bars.isEmpty = false := by
        cases bars with
        | nil => exact absurd rfl hb
        | cons c r => rfl
      simp [calculate_volume_profile, h1, hnil]
  · intro b hb v hv
    have hne := volEntries_ne_nil_of_vol bars b v hb hv
    have htop : selectTop 10 (volEntries bars) ≠ [] := selectTop_ne_nil 9 _ hne
    obtain ⟨ma, hma⟩ : ∃ e, firstArgmax (volEntries bars) = some e := by
      rcases hfa : firstArgmax (volEntries bars) with _ | e
      · exact absurd ((firstArgmax_eq_none _).mp hfa) hne
      · exact ⟨e, rfl⟩
    have hmaph : (selectTop 10 (volEntries bars)).map (fun e => e.2.1.high) ≠ [] := by
      simpa using htop
    have hmapl : (selectTop 10 (volEntries bars)).map (fun e => e.2.1.low) ≠ [] := by
      simpa using htop
    obtain ⟨mh, hmh⟩ := listMax_isSome _ hmaph
    obtain ⟨ml, hml⟩ := listMin_isSome _ hmapl
    refine ⟨ma.2.1.close, mh, ml, ?_⟩
    rw [calculate_volume_profile_of_ne bars hne, hma, hmh, hml]
    rfl

/-- Witness for C6's amended theorem on the one-bar zero-volume series. -/
theorem volume_profile_result_cases_witness :
    (zeroVolBar ∈ [zeroVolBar] ∧ zeroVolBar.volume = some 0) ∧
      ∃ p hq lq : ℚ, calculate_volume_profile [zeroVolBar] = (some p, some hq, some lq) :=
  ⟨⟨List.mem_cons_self _ _, rfl⟩,
    (volume_profile_result_cases [zeroVolBar]).2.2 zeroVolBar
      (List.mem_cons_self _ _) 0 rfl⟩

/-- Claim C1 counterexample: on three bars closing at 10, 10, 20 with
volumes 5, 5, 6 the aggregated bucket at close 10 holds volume 10, the one
at close 20 holds 6, yet the analysis reports PoC = 20 — the close of the
single largest-raw-volume bar, not of the maximal aggregated bucket. -/
theorem poc_not_aggregated_bucket :
    (calculate_volume_profile bars3).1 = some 20 ∧
      aggVolumeAt bars3 10 = 10 ∧ aggVolumeAt bars3 20 = 6 ∧
      ¬ (∀ q : ℚ, (∃ b ∈ bars3, b.close = q) →
          aggVolumeAt bars3 q ≤ aggVolumeAt bars3 20) := by
  have hA : aggVolumeAt bars3 10 = 10 := by norm_num [aggVolumeAt, bars3]
  have hB : aggVolumeAt bars3 20 = 6 := by norm_num [aggVolumeAt, bars3]
  refine ⟨rfl, hA, hB, ?_⟩
  intro h
  have h10 := h 10 ⟨⟨11, 9, 10, some 5⟩, by simp [bars3], rfl⟩
  rw [hA, hB] at h10
  norm_num at h10

/-- Claim C1 (amended): the Point of Control is the close price of the
first bar attaining the maximal raw (per-bar) volume among the bars with a
present volume cell; volume is not aggregated across bars sharing a close
price. -/
theorem poc_first_raw_volume_argmax (bars : List Bar) (b : Bar) (v : ℚ)
    (hb : b ∈ bars) (hv : b.volume = some v) :
    ∃ (i : Nat) (bi : Bar) (vi : ℚ), bars[i]? = some bi ∧ bi.volume = some vi ∧
      (calculate_volume_profile bars).1 = some bi.close ∧
      (∀ (j : Nat) (bj : Bar) (w : ℚ), bars[j]? = some bj → bj.volume = some w →
        w ≤ vi) ∧
      (∀ (j : Nat) (bj : Bar) (w : ℚ), j < i → bars[j]? = some bj →
        bj.volume = some w → w < vi) := by
  have hne := volEntries_ne_nil_of_vol bars b v hb hv
  obtain ⟨m, hm⟩ : ∃ e, firstArgmax (volEntries bars) = some e := by
    rcases hfa : firstArgmax (volEntries bars) with _ | e
    · exact absurd ((firstArgmax_eq_none _).mp hfa) hne
    · exact ⟨e, rfl⟩
  obtain ⟨l₁, l₂, hsplit, hlt, hle⟩ := firstArgmax_decomp _ m hm
  have hmmem : m ∈ volEntries bars := by
    rw [hsplit]
    exact List.mem_append_right _ (List.mem_cons_self _ _)
  obtain ⟨km, hkm, hkget, hkvol⟩ :=
    (volEntriesFrom_mem bars 0 m.1 m.2.1 m.2.2).mp hmmem
  have hkm' : km = m.1 := by omega
  subst hkm'
  refine ⟨m.1, m.2.1, m.2.2, hkget, hkvol, ?_, ?_, ?_⟩
  · rw [calculate_volume_profile_of_ne bars hne, hm]
    rfl
  · intro j bj w hj hw
    have hj_ent : (j, bj, w) ∈ volEntries bars :=
      (volEntriesFrom_mem bars 0 j bj w).mpr ⟨j, by omega, hj, hw⟩
    rw [hsplit] at hj_ent
    rcases List.mem_append.mp hj_ent with h1 | h2
    · exact le_of_lt (hlt _ h1)
    · rcases List.mem_cons.mp h2 with heq | h3
      · have hweq : w = m.2.2 := by rw [← heq]
        exact le_of_eq hweq
      · exact hle _ h3
  · intro j bj w hjlt hj hw
    have hj_ent : (j, bj, w) ∈ volEntries bars :=
      (volEntriesFrom_mem bars 0 j bj w).mpr ⟨j, by omega, hj, hw⟩
    have hpair : List.Pairwise (fun x y => x.1 < y.1) (volEntries bars) :=
      volEntriesFrom_pairwise bars 0
    rw [hsplit] at hj_ent hpair
    rcases List.mem_append.mp hj_ent with h1 | h2
    · exact hlt _ h1
    · exfalso
      rcases List.mem_cons.mp h2 with heq | h3
      · have hjm : j = m.1 := by rw [← heq]
        omega
      · obtain ⟨-, hp2, -⟩ := List.pairwise_append.mp hpair
        obtain ⟨hml2, -⟩ := List.pairwise_cons.mp hp2
        have := hml2 _ h3
        omega

/-- Witness for C1's amended theorem on a two-bar series. -/
theorem poc_first_raw_volume_argmax_witness :
    ((⟨8, 2, 7, some 9⟩ : Bar) ∈ barsW ∧ (⟨8, 2, 7, some 9⟩ : Bar).volume = some 9) ∧
      (∃ (i : Nat) (bi : Bar) (vi : ℚ), barsW[i]? = some bi ∧ bi.volume = some vi ∧
        (calculate_volume_profile barsW).1 = some bi.close ∧
        (∀ (j : Nat) (bj : Bar) (w : ℚ), barsW[j]? = some bj → bj.volume = some w →
          w ≤ vi) ∧
        (∀ (j : Nat) (bj : Bar) (w : ℚ), j < i → barsW[j]? = some bj →
          bj.volume = some w → w < vi)) :=
  ⟨⟨by decide, rfl⟩,
    poc_first_raw_volume_argmax barsW ⟨8, 2, 7, some 9⟩ 9 (by decide) rfl⟩

/-- Claim C9: with at least one present volume, the Value-Area High and Low
are exactly the maximum of the highs and the minimum of the lows over the
set of top bars ranked by raw volume — a duplicate-free selection of
`min 10 (number of present-volume bars)` entries such that every entry left
out has volume at most that of every entry selected. -/
theorem value_area_top10_bars (bars : List Bar) (b : Bar) (v : ℚ)
    (hb : b ∈ bars) (hv : b.volume = some v) :
    ∃ top : List (Nat × Bar × ℚ),
      (∀ e ∈ top, e ∈ volEntries bars) ∧ top.Nodup ∧
      top.length = min 10 (volEntries bars).length ∧
      (∀ e ∈ volEntries bars, e ∉ top → ∀ f ∈ top, e.2.2 ≤ f.2.2) ∧
      (calculate_volume_profile bars).2.1 = listMax (top.map (fun e => e.2.1.high)) ∧
      (calculate_volume_profile bars).2.2 = listMin (top.map (fun e => e.2.1.low)) := by
  have hne := volEntries_ne_nil_of_vol bars b v hb hv
  have hnd : (volEntries bars).Nodup := by
    have hp := volEntriesFrom_pairwise bars 0
    exact hp.imp (fun hxy heq => by rw [heq] at hxy; exact lt_irrefl _ hxy)
  refine ⟨selectTop 10 (volEntries bars), selectTop_subset 10 _,
    selectTop_nodup 10 _ hnd, selectTop_length 10 _, selectTop_rank 10 _, ?_, ?_⟩
  · rw [calculate_volume_profile_of_ne bars hne]
  · rw [calculate_volume_profile_of_ne bars hne]

/-- Witness for C9 on a two-bar series. -/
theorem value_area_top10_bars_witness :
    ((⟨8, 2, 7, some 9⟩ : Bar) ∈ barsW ∧ (⟨8, 2, 7, some 9⟩ : Bar).volume = some 9) ∧
      (∃ top : List (Nat × Bar × ℚ),
        (∀ e ∈ top, e ∈ volEntries barsW) ∧ top.Nodup ∧
        top.length = min 10 (volEntries barsW).length ∧
        (∀ e ∈ volEntries barsW, e ∉ top → ∀ f ∈ top, e.2.2 ≤ f.2.2) ∧
        (calculate_volume_profile barsW).2.1 = listMax (top.map (fun e => e.2.1.high)) ∧
        (calculate_volume_profile barsW).2.2 = listMin (top.map (fun e => e.2.1.low))) :=
  ⟨⟨by decide, rfl⟩,
    value_area_top10_bars barsW ⟨8, 2, 7, some 9⟩ 9 (by decide) rfl⟩
